import Mathlib

/-!
Verification of the NetEmbs synthetic transaction generator
(`Simulation/Abstract/Transaction.py`).

The SQLite-backed ledger is modelled as a pure state: two append-only
lists of rows, with `lastrowid` modelled as the new length of the table
(rowids are 1,2,3,... for an append-only table).  The process-wide
pseudo-random source is modelled as explicit streams of rational draws,
each draw lying in [0,1) exactly as Python's random.random does;
random.uniform(a, b) is a + (b-a)*u for such a draw u, and
randomString(6) is modelled as a stream of strings.  Amounts are
rationals.
-/

/-- One row of the EntryRecords table: (rowid, TID, Name, FA_Name, Value). -/
structure LineRecord where
  lid : Nat
  tid : Nat
  name : String
  fa_name : String
  value : Rat
deriving DecidableEq, Repr

/-- One row of the JournalEntries table: (rowid, Time, Name, FA_Name). -/
structure JournalEntry where
  eid : Nat
  time : Rat
  name : String
  fa_name : String
deriving DecidableEq, Repr

/-- The database state: the two tables, append-only. -/
structure Store where
  entries : List JournalEntry
  lines : List LineRecord
deriving DecidableEq, Repr

/-- `Transaction.addRecord`: INSERT INTO EntryRecords (TID, Name, FA_Name, Value),
commit, and return `lastrowid`.  For an append-only table the fresh rowid is
the new number of rows. -/
def Store.addRecord (s : Store) (nm fa : String) (v : Rat) (tid : Nat) :
    Nat × Store :=
  let lid := s.lines.length + 1
  (lid, { s with lines := s.lines ++ [⟨lid, tid, nm, fa, v⟩] })

/-- `Transaction.new`: INSERT INTO JournalEntries (Time, Name, FA_Name) with
values (env.now, self.name + str(postfix), self.name), commit, return
`lastrowid`. -/
def Transaction.new (s : Store) (now : Rat) (tname pfix : String) :
    Nat × Store :=
  let eid := s.entries.length + 1
  (eid, { s with entries := s.entries ++ [⟨eid, now, tname ++ pfix, tname⟩] })

/-- The NOISE_Type2 configuration dictionary. -/
structure NoiseConfig where
  freq : Rat
  num_amplitude : Rat
  noise_amplitude : Rat
  proportion : Rat
deriving DecidableEq, Repr

/-- The random draws one call to `Transaction.noise` may consume: the
frequency draw, the count draw, and per-iteration streams for the random
account name, the amount draw and the side draw.  A draw from
random.random() lies in [0,1). -/
structure NoiseDraws where
  u_freq : Rat
  u_count : Rat
  name : Nat → String
  u_amt : Nat → Rat
  u_side : Nat → Rat

/-- Python random.uniform(lo, hi) = lo + (hi - lo) * random.random(). -/
def uniform (lo hi u : Rat) : Rat := lo + (hi - lo) * u

/-- The loop count `int(random.uniform(0.0, num_amplitude))` fed to `range`.
For a non-negative argument Python's int() truncation is the floor, and
`Int.toNat` makes the negative-argument cases agree with `range` of a
non-positive int (an empty loop) as well. -/
def numNoise (cfg : NoiseConfig) (u : Rat) : Nat :=
  ⌊uniform 0 cfg.num_amplitude u⌋.toNat

/-- The two sides of np.random.choice(["left", "right"], p). -/
inductive Side
  | left
  | right
deriving DecidableEq, Repr

/-- np.random.choice(["left", "right"], p=[p, 1-p]) draws u in [0,1) and
selects by the cumulative distribution: "left" iff u < p. -/
def sideChoice (p u : Rat) : Side := if u < p then .left else .right

/-- The dictionary `noise = {"left": [0.0], "right": [0.0]}` accumulated and
returned by `Transaction.noise`. -/
structure NoiseResult where
  left : List Rat
  right : List Rat
deriving DecidableEq, Repr

/-- One iteration of the noise loop: draw a name, an amount and a side;
append the amount to the side's list and insert the record
(Name = noise_name + "_" + str(id), FA_Name = noise_name,
Value = -amount on the left side, +amount on the right side). -/
def noiseIter (cfg : NoiseConfig) (base : Rat) (id tid : Nat)
    (d : NoiseDraws) (acc : NoiseResult × Store) (i : Nat) :
    NoiseResult × Store :=
  let nm := d.name i
  let amt := base * uniform 0 cfg.noise_amplitude (d.u_amt i)
  match sideChoice cfg.proportion (d.u_side i) with
  | .left =>
      ({ acc.1 with left := acc.1.left ++ [amt] },
       (acc.2.addRecord (nm ++ "_" ++ toString id) nm (-amt) tid).2)
  | .right =>
      ({ acc.1 with right := acc.1.right ++ [amt] },
       (acc.2.addRecord (nm ++ "_" ++ toString id) nm amt tid).2)

/-- `Transaction.noise`: if random.random() < freq, loop
`int(random.uniform(0, num_amplitude))` times adding noise records;
return the per-side amount lists (initialised to [0.0] each). -/
def Transaction.noise (cfg : NoiseConfig) (base : Rat) (id tid : Nat)
    (d : NoiseDraws) (s : Store) : NoiseResult × Store :=
  if d.u_freq < cfg.freq then
    (List.range (numNoise cfg d.u_count)).foldl
      (noiseIter cfg base id tid d) (⟨[0], [0]⟩, s)
  else (⟨[0], [0]⟩, s)

/-- The magnitude drawn for noise line `i`:
base_amount * random.uniform(0.0, noise_amplitude). -/
def mag (cfg : NoiseConfig) (base : Rat) (d : NoiseDraws) (i : Nat) : Rat :=
  base * uniform 0 cfg.noise_amplitude (d.u_amt i)

/-- Whether noise line `i` is drawn on the "left" side. -/
def isLeft (cfg : NoiseConfig) (d : NoiseDraws) (i : Nat) : Bool :=
  d.u_side i < cfg.proportion

/-- The record the i-th noise iteration inserts, given its rowid `lid`. -/
def noiseLine (cfg : NoiseConfig) (base : Rat) (id tid : Nat)
    (d : NoiseDraws) (lid i : Nat) : LineRecord :=
  if isLeft cfg d i then
    ⟨lid, tid, d.name i ++ "_" ++ toString id, d.name i, -(mag cfg base d i)⟩
  else
    ⟨lid, tid, d.name i ++ "_" ++ toString id, d.name i, mag cfg base d i⟩

/-- The records the first `n` noise iterations insert, the first one getting
rowid `lid0`. -/
def noiseRecs (cfg : NoiseConfig) (base : Rat) (id tid : Nat)
    (d : NoiseDraws) (lid0 n : Nat) : List LineRecord :=
  (List.range n).map (fun i => noiseLine cfg base id tid d (lid0 + i) i)

/-- The amounts accumulated in the "left" list by the first `n` iterations. -/
def leftMags (cfg : NoiseConfig) (base : Rat) (d : NoiseDraws) (n : Nat) :
    List Rat :=
  ((List.range n).filter (isLeft cfg d)).map (mag cfg base d)

/-- The amounts accumulated in the "right" list by the first `n` iterations. -/
def rightMags (cfg : NoiseConfig) (base : Rat) (d : NoiseDraws) (n : Nat) :
    List Rat :=
  ((List.range n).filter (fun i => ! isLeft cfg d i)).map (mag cfg base d)

/-- How many noise lines one call to `Transaction.noise` inserts. -/
def noiseCount (cfg : NoiseConfig) (d : NoiseDraws) : Nat :=
  if d.u_freq < cfg.freq then numNoise cfg d.u_count else 0

theorem noiseRecs_length (cfg : NoiseConfig) (base : Rat) (id tid : Nat)
    (d : NoiseDraws) (lid0 n : Nat) :
    (noiseRecs cfg base id tid d lid0 n).length = n := by
  simp [noiseRecs]

theorem noiseRecs_succ (cfg : NoiseConfig) (base : Rat) (id tid : Nat)
    (d : NoiseDraws) (lid0 n : Nat) :
    noiseRecs cfg base id tid d lid0 (n + 1) =
      noiseRecs cfg base id tid d lid0 n ++
        [noiseLine cfg base id tid d (lid0 + n) n] := by
  simp [noiseRecs, List.range_succ]

theorem leftMags_succ (cfg : NoiseConfig) (base : Rat) (d : NoiseDraws)
    (n : Nat) :
    leftMags cfg base d (n + 1) =
      leftMags cfg base d n ++
        (if isLeft cfg d n then [mag cfg base d n] else []) := by
  by_cases h : isLeft cfg d n <;>
    simp [leftMags, List.range_succ, List.filter_append, h]

theorem rightMags_succ (cfg : NoiseConfig) (base : Rat) (d : NoiseDraws)
    (n : Nat) :
    rightMags cfg base d (n + 1) =
      rightMags cfg base d n ++
        (if isLeft cfg d n then [] else [mag cfg base d n]) := by
  by_cases h : isLeft cfg d n <;>
    simp [rightMags, List.range_succ, List.filter_append, h]

/-- Effect of the noise loop on the accumulator and the store. -/
theorem noise_fold_spec (cfg : NoiseConfig) (base : Rat) (id tid : Nat)
    (d : NoiseDraws) (n : Nat) (L R : List Rat) (s : Store) :
    (List.range n).foldl (noiseIter cfg base id tid d) (⟨L, R⟩, s) =
      (⟨L ++ leftMags cfg base d n, R ++ rightMags cfg base d n⟩,
       ⟨s.entries,
        s.lines ++ noiseRecs cfg base id tid d (s.lines.length + 1) n⟩) := by
  induction n with
  | zero => simp [leftMags, rightMags, noiseRecs]
  | succ n ih =>
      rw [List.range_succ, List.foldl_append, ih]
      simp only [List.foldl_cons, List.foldl_nil]
      rw [noiseRecs_succ, leftMags_succ, rightMags_succ]
      by_cases h : isLeft cfg d n
      · have hs : sideChoice cfg.proportion (d.u_side n) = Side.left := by
          simp only [isLeft, decide_eq_true_eq] at h
          simp [sideChoice, h]
        simp [noiseIter, hs, Store.addRecord, noiseLine, h, mag,
          noiseRecs_length, Nat.add_comm, Nat.add_assoc, Nat.add_left_comm]
      · have hs : sideChoice cfg.proportion (d.u_side n) = Side.right := by
          simp only [isLeft, decide_eq_true_eq] at h
          simp [sideChoice, h]
        simp [noiseIter, hs, Store.addRecord, noiseLine, h, mag,
          noiseRecs_length, Nat.add_comm, Nat.add_assoc, Nat.add_left_comm]

/-- Full characterisation of one call to `Transaction.noise`. -/
theorem noise_spec (cfg : NoiseConfig) (base : Rat) (id tid : Nat)
    (d : NoiseDraws) (s : Store) :
    Transaction.noise cfg base id tid d s =
      (⟨0 :: leftMags cfg base d (noiseCount cfg d),
        0 :: rightMags cfg base d (noiseCount cfg d)⟩,
       ⟨s.entries,
        s.lines ++
          noiseRecs cfg base id tid d (s.lines.length + 1)
            (noiseCount cfg d)⟩) := by
  unfold Transaction.noise noiseCount
  by_cases h : d.u_freq < cfg.freq
  · simp only [if_pos h]
    rw [noise_fold_spec]
    simp
  · simp [if_neg h, leftMags, rightMags, noiseRecs]

/-- Modelled from the spec: writing every tuple of `true_lines` as a
LineRecord under the freshly created entry, unmodified, through the
source-derived `Store.addRecord`.  The driver that issues these writes is
not among the given sources. -/
def writeTrueLines (tl : List (String × String × Rat)) (eid : Nat)
    (s : Store) : Store :=
  tl.foldl (fun st t => (st.addRecord t.1 t.2.1 t.2.2 eid).2) s

/-- The records `writeTrueLines` appends, the first one getting rowid
`lid`. -/
def trueRecs : List (String × String × Rat) → Nat → Nat → List LineRecord
  | [], _, _ => []
  | t :: ts, eid, lid => ⟨lid, eid, t.1, t.2.1, t.2.2⟩ :: trueRecs ts eid (lid + 1)

theorem writeTrueLines_eq (tl : List (String × String × Rat)) (eid : Nat)
    (s : Store) :
    writeTrueLines tl eid s =
      ⟨s.entries, s.lines ++ trueRecs tl eid (s.lines.length + 1)⟩ := by
  induction tl generalizing s with
  | nil => simp [writeTrueLines, trueRecs]
  | cons t ts ih =>
      simp only [writeTrueLines, List.foldl_cons] at *
      rw [ih]
      simp [Store.addRecord, trueRecs, Nat.add_comm, Nat.add_assoc,
        Nat.add_left_comm]

theorem trueRecs_length (tl : List (String × String × Rat)) (eid lid : Nat) :
    (trueRecs tl eid lid).length = tl.length := by
  induction tl generalizing lid with
  | nil => simp [trueRecs]
  | cons t ts ih => simp [trueRecs, ih]

theorem trueRecs_tid (tl : List (String × String × Rat)) (eid lid : Nat) :
    ∀ r ∈ trueRecs tl eid lid, r.tid = eid := by
  induction tl generalizing lid with
  | nil => simp [trueRecs]
  | cons t ts ih =>
      intro r hr
      rcases List.mem_cons.mp hr with h | h
      · subst h; rfl
      · exact ih _ r h

theorem trueRecs_proj (tl : List (String × String × Rat)) (eid lid : Nat) :
    (trueRecs tl eid lid).map (fun r => (r.name, r.fa_name, r.value)) = tl := by
  induction tl generalizing lid with
  | nil => simp [trueRecs]
  | cons t ts ih => simp [trueRecs, ih]

/-- Error taxonomy of the spec (section 7). -/
inductive GenError
  | configError
  | dataError
deriving DecidableEq, Repr

/-- The valid-range condition the spec imposes on the noise configuration:
probabilities and proportion in [0,1], amplitudes non-negative. -/
def NoiseConfig.Valid (cfg : NoiseConfig) : Prop :=
  0 ≤ cfg.freq ∧ cfg.freq ≤ 1 ∧ 0 ≤ cfg.proportion ∧ cfg.proportion ≤ 1 ∧
    0 ≤ cfg.num_amplitude ∧ 0 ≤ cfg.noise_amplitude

instance (cfg : NoiseConfig) : Decidable cfg.Valid := by
  unfold NoiseConfig.Valid
  infer_instance

/-- One invocation's inputs for the generate workflow: the configuration,
the process label and suffix, the simulated time, the base amount, the
true lines and the random draws the noise step may use. -/
structure GenInput where
  cfg : NoiseConfig
  process : String
  pfix : String
  now : Rat
  base : Rat
  true_lines : List (String × String × Rat)
  d : NoiseDraws

/-- Modelled from the spec: the `generate` orchestration (spec section 4.2)
is driver-side code not among the given sources.  It validates the
configuration and the input before the first Store call, then creates the
header via `Transaction.new`, writes the true lines, and runs
`Transaction.noise` with the fresh entry id. -/
def generate (g : GenInput) (s : Store) :
    Except GenError (Nat × NoiseResult) × Store :=
  if ¬ g.cfg.Valid then (.error .configError, s)
  else if g.true_lines = [] then (.error .dataError, s)
  else
    let p := Transaction.new s g.now g.process g.pfix
    let s2 := writeTrueLines g.true_lines p.1 p.2
    let q := Transaction.noise g.cfg g.base p.1 p.1 g.d s2
    (.ok (p.1, q.1), q.2)

/-- A whole run: the generate calls of a driver, performed in order. -/
def generateMany (gs : List GenInput) (s : Store) : Store :=
  gs.foldl (fun st g => (generate g st).2) s

/-- Persistence failure taxonomy of the spec (section 7): a
referential-integrity violation. -/
inductive StoreError
  | missingEntry
deriving DecidableEq, Repr

/-- Modelled from the spec: `add_line` of the Ledger Store contract
(section 4.1).  The schema and its foreign-key enforcement are created
outside the given sources; per the spec a write against an `entry_id`
not created in this run fails fast and persists nothing, and otherwise
the write is the source-derived `Store.addRecord`. -/
def add_line (s : Store) (entry_id : Nat) (nm fa : String) (v : Rat) :
    Except StoreError Nat × Store :=
  if s.entries.any (fun e => e.eid == entry_id) then
    let p := s.addRecord nm fa v entry_id
    (.ok p.1, p.2)
  else (.error .missingEntry, s)

/-- Every entry rowid is at most the number of entry rows (true of the
rowids 1..n of an append-only table). -/
def Store.entriesWf (s : Store) : Prop :=
  ∀ e ∈ s.entries, e.eid ≤ s.entries.length

/-- Every line rowid is at most the number of line rows. -/
def Store.linesWf (s : Store) : Prop :=
  ∀ r ∈ s.lines, r.lid ≤ s.lines.length

/-- Every line references an entry that exists. -/
def Store.tidsWf (s : Store) : Prop :=
  ∀ r ∈ s.lines, r.tid ≤ s.entries.length

theorem noiseLine_lid (cfg : NoiseConfig) (base : Rat) (id tid : Nat)
    (d : NoiseDraws) (lid i : Nat) :
    (noiseLine cfg base id tid d lid i).lid = lid := by
  unfold noiseLine; split <;> rfl

theorem noiseLine_tid (cfg : NoiseConfig) (base : Rat) (id tid : Nat)
    (d : NoiseDraws) (lid i : Nat) :
    (noiseLine cfg base id tid d lid i).tid = tid := by
  unfold noiseLine; split <;> rfl

theorem noiseLine_name (cfg : NoiseConfig) (base : Rat) (id tid : Nat)
    (d : NoiseDraws) (lid i : Nat) :
    (noiseLine cfg base id tid d lid i).name =
      d.name i ++ "_" ++ toString id := by
  unfold noiseLine; split <;> rfl

theorem noiseLine_fa_name (cfg : NoiseConfig) (base : Rat) (id tid : Nat)
    (d : NoiseDraws) (lid i : Nat) :
    (noiseLine cfg base id tid d lid i).fa_name = d.name i := by
  unfold noiseLine; split <;> rfl

theorem noiseLine_value (cfg : NoiseConfig) (base : Rat) (id tid : Nat)
    (d : NoiseDraws) (lid i : Nat) :
    (noiseLine cfg base id tid d lid i).value =
      if isLeft cfg d i then -(mag cfg base d i) else mag cfg base d i := by
  unfold noiseLine; split <;> simp_all

theorem mem_noiseRecs (cfg : NoiseConfig) (base : Rat) (id tid : Nat)
    (d : NoiseDraws) (lid0 n : Nat) (r : LineRecord) :
    r ∈ noiseRecs cfg base id tid d lid0 n ↔
      ∃ i, i < n ∧ r = noiseLine cfg base id tid d (lid0 + i) i := by
  simp only [noiseRecs, List.mem_map, List.mem_range]
  constructor
  · rintro ⟨i, hi, rfl⟩; exact ⟨i, hi, rfl⟩
  · rintro ⟨i, hi, rfl⟩; exact ⟨i, hi, rfl⟩

/-- What a successful `generate` call returns and stores. -/
theorem generate_ok_eq (g : GenInput) (s : Store) (hv : g.cfg.Valid)
    (ht : g.true_lines ≠ []) :
    generate g s =
      (.ok (s.entries.length + 1,
        ⟨0 :: leftMags g.cfg g.base g.d (noiseCount g.cfg g.d),
         0 :: rightMags g.cfg g.base g.d (noiseCount g.cfg g.d)⟩),
       ⟨s.entries ++
          [⟨s.entries.length + 1, g.now, g.process ++ g.pfix, g.process⟩],
        s.lines ++
          trueRecs g.true_lines (s.entries.length + 1) (s.lines.length + 1) ++
          noiseRecs g.cfg g.base (s.entries.length + 1) (s.entries.length + 1)
            g.d (s.lines.length + g.true_lines.length + 1)
            (noiseCount g.cfg g.d)⟩) := by
  have h1 : ¬ ¬ g.cfg.Valid := not_not_intro hv
  simp only [generate, if_neg h1, if_neg ht, Transaction.new]
  rw [writeTrueLines_eq, noise_spec]
  simp [trueRecs_length, Nat.add_comm, Nat.add_assoc, Nat.add_left_comm]

theorem uniform_zero (hi u : Rat) : uniform 0 hi u = hi * u := by
  unfold uniform; ring

theorem mag_nonneg (cfg : NoiseConfig) (base : Rat) (d : NoiseDraws) (i : Nat)
    (hb : 0 ≤ base) (hna : 0 ≤ cfg.noise_amplitude) (hu : 0 ≤ d.u_amt i) :
    0 ≤ mag cfg base d i := by
  unfold mag
  rw [uniform_zero]
  exact mul_nonneg hb (mul_nonneg hna hu)

theorem noiseCount_eq_zero (cfg : NoiseConfig) (d : NoiseDraws)
    (hf : cfg.freq = 0) (hu : 0 ≤ d.u_freq) : noiseCount cfg d = 0 := by
  simp [noiseCount, hf, not_lt.mpr hu]

theorem mem_trueRecs (tl : List (String × String × Rat)) (eid lid : Nat)
    (r : LineRecord) (hr : r ∈ trueRecs tl eid lid) :
    ∃ t ∈ tl, r.name = t.1 ∧ r.fa_name = t.2.1 ∧ r.value = t.2.2 := by
  induction tl generalizing lid with
  | nil => simp [trueRecs] at hr
  | cons t ts ih =>
      simp only [trueRecs] at hr
      rcases List.mem_cons.mp hr with h | h
      · exact ⟨t, List.mem_cons_self t ts, by subst h; exact ⟨rfl, rfl, rfl⟩⟩
      · obtain ⟨t2, ht2, hp⟩ := ih _ h
        exact ⟨t2, List.mem_cons_of_mem t ht2, hp⟩

theorem trueRecs_lid_lt (tl : List (String × String × Rat)) (eid lid0 : Nat) :
    ∀ r ∈ trueRecs tl eid lid0, r.lid < lid0 + tl.length := by
  induction tl generalizing lid0 with
  | nil => simp [trueRecs]
  | cons t ts ih =>
      intro r hr
      simp only [trueRecs] at hr
      rcases List.mem_cons.mp hr with h | h
      · subst h; simp
      · have := ih (lid0 + 1) r h
        simp only [List.length_cons]
        omega

theorem length_filter_partition (p : Nat → Bool) (l : List Nat) :
    (l.filter p).length + (l.filter (fun i => ! p i)).length = l.length := by
  induction l with
  | nil => rfl
  | cons a l ih =>
      by_cases h : p a <;> simp [h, List.filter_cons] <;> omega

theorem new_entriesWf (s : Store) (now : Rat) (tname pfix : String)
    (h : s.entriesWf) : (Transaction.new s now tname pfix).2.entriesWf := by
  intro e he
  simp only [Transaction.new, List.length_append, List.length_cons,
    List.length_nil] at he ⊢
  rcases List.mem_append.mp he with h1 | h1
  · exact le_trans (h e h1) (by omega)
  · simp only [List.mem_cons, List.not_mem_nil, or_false] at h1
    subst h1
    simp

theorem new_linesWf (s : Store) (now : Rat) (tname pfix : String)
    (h : s.linesWf) : (Transaction.new s now tname pfix).2.linesWf := by
  intro r hr
  exact h r hr

theorem addRecord_linesWf (s : Store) (nm fa : String) (v : Rat) (tid : Nat)
    (h : s.linesWf) : (s.addRecord nm fa v tid).2.linesWf := by
  intro r hr
  simp only [Store.addRecord, List.length_append, List.length_cons,
    List.length_nil] at hr ⊢
  rcases List.mem_append.mp hr with h1 | h1
  · exact le_trans (h r h1) (by omega)
  · simp only [List.mem_cons, List.not_mem_nil, or_false] at h1
    subst h1
    simp

theorem addRecord_entriesWf (s : Store) (nm fa : String) (v : Rat) (tid : Nat)
    (h : s.entriesWf) : (s.addRecord nm fa v tid).2.entriesWf := by
  intro e he
  exact h e he

theorem writeTrueLines_linesWf (tl : List (String × String × Rat)) (eid : Nat)
    (s : Store) (h : s.linesWf) : (writeTrueLines tl eid s).linesWf := by
  intro r hr
  rw [writeTrueLines_eq] at hr ⊢
  simp only [List.length_append, trueRecs_length] at hr ⊢
  rcases List.mem_append.mp hr with h1 | h1
  · exact le_trans (h r h1) (by omega)
  · have := trueRecs_lid_lt tl eid (s.lines.length + 1) r h1
    omega

theorem writeTrueLines_entriesWf (tl : List (String × String × Rat))
    (eid : Nat) (s : Store) (h : s.entriesWf) :
    (writeTrueLines tl eid s).entriesWf := by
  intro e he
  rw [writeTrueLines_eq] at he ⊢
  exact h e he

theorem noise_linesWf (cfg : NoiseConfig) (base : Rat) (id tid : Nat)
    (d : NoiseDraws) (s : Store) (h : s.linesWf) :
    (Transaction.noise cfg base id tid d s).2.linesWf := by
  intro r hr
  rw [noise_spec] at hr ⊢
  simp only [List.length_append, noiseRecs_length] at hr ⊢
  rcases List.mem_append.mp hr with h1 | h1
  · exact le_trans (h r h1) (by omega)
  · obtain ⟨i, hi, rfl⟩ := (mem_noiseRecs cfg base id tid d _ _ r).mp h1
    rw [noiseLine_lid]
    omega

theorem noise_entriesWf (cfg : NoiseConfig) (base : Rat) (id tid : Nat)
    (d : NoiseDraws) (s : Store) (h : s.entriesWf) :
    (Transaction.noise cfg base id tid d s).2.entriesWf := by
  intro e he
  rw [noise_spec] at he ⊢
  exact h e he

theorem generate_entriesWf (g : GenInput) (s : Store) (h : s.entriesWf) :
    (generate g s).2.entriesWf := by
  unfold generate
  split
  · exact h
  · split
    · exact h
    · exact noise_entriesWf _ _ _ _ _ _
        (writeTrueLines_entriesWf _ _ _ (new_entriesWf _ _ _ _ h))

theorem generate_linesWf (g : GenInput) (s : Store) (h : s.linesWf) :
    (generate g s).2.linesWf := by
  unfold generate
  split
  · exact h
  · split
    · exact h
    · exact noise_linesWf _ _ _ _ _ _
        (writeTrueLines_linesWf _ _ _ (new_linesWf _ _ _ _ h))

/-- A concrete draw stream used to instantiate the theorems below. -/
def dW : NoiseDraws := ⟨0, 1/2, fun _ => "AB", fun _ => 1/2, fun _ => 0⟩

/-- The empty database. -/
def sEmpty : Store := ⟨[], []⟩

/-- A concrete valid configuration: always inject, up to two lines, all on
the left. -/
def cfgW : NoiseConfig := ⟨1, 2, 1, 1⟩

/-- C1: with an out-of-range probability or amplitude parameter `generate`
fails with a configuration error, with a valid configuration but empty
`true_lines` it fails with a data error, and in either case the store is
exactly the input store: nothing was persisted. -/
theorem generate_validates_before_store (g : GenInput) (s : Store) :
    (¬ g.cfg.Valid → generate g s = (.error .configError, s)) ∧
    (g.cfg.Valid → g.true_lines = [] →
      generate g s = (.error .dataError, s)) := by
  constructor
  · intro h
    unfold generate
    rw [if_pos h]
  · intro hv ht
    unfold generate
    rw [if_neg (not_not_intro hv), if_pos ht]

/-- Witness for C1 at two concrete inputs: frequency 2 is rejected as a
configuration error; empty true lines are rejected as a data error. -/
theorem generate_validates_before_store_witness :
    generate ⟨⟨2, 1, 1, 1⟩, "P", "0", 0, 100, [("A", "R", 0)], dW⟩ sEmpty =
        (.error .configError, sEmpty) ∧
    generate ⟨⟨1, 1, 1, 1⟩, "P", "0", 0, 100, [], dW⟩ sEmpty =
        (.error .dataError, sEmpty) :=
  ⟨(generate_validates_before_store _ _).1
      (by norm_num [NoiseConfig.Valid]),
   (generate_validates_before_store _ _).2
      (by norm_num [NoiseConfig.Valid]) rfl⟩

/-- C2: with frequency 0 every line persisted over a whole run of
`generate` calls is either an initial line or one of the true lines some
call wrote; no noise record is ever written. -/
theorem freq_zero_no_noise (gs : List GenInput) (s : Store)
    (h : ∀ g ∈ gs, g.cfg.freq = 0 ∧ 0 ≤ g.d.u_freq) :
    ∀ r ∈ (generateMany gs s).lines,
      r ∈ s.lines ∨ ∃ g ∈ gs, ∃ t ∈ g.true_lines,
        r.name = t.1 ∧ r.fa_name = t.2.1 ∧ r.value = t.2.2 := by
  induction gs generalizing s with
  | nil =>
      intro r hr
      exact .inl hr
  | cons g gs ih =>
      intro r hr
      have hg := h g (List.mem_cons_self g gs)
      have htail : ∀ g2 ∈ gs, g2.cfg.freq = 0 ∧ 0 ≤ g2.d.u_freq :=
        fun g2 h2 => h g2 (List.mem_cons_of_mem g h2)
      have hr2 : r ∈ (generateMany gs (generate g s).2).lines := hr
      rcases ih (generate g s).2 htail r hr2 with h1 | ⟨g2, hg2, t, ht, hp⟩
      · by_cases hv : g.cfg.Valid
        · by_cases htl : g.true_lines = []
          · rw [(generate_validates_before_store g s).2 hv htl] at h1
            exact .inl h1
          · rw [generate_ok_eq g s hv htl] at h1
            rw [noiseCount_eq_zero g.cfg g.d hg.1 hg.2] at h1
            simp only [noiseRecs, List.range_zero, List.map_nil,
              List.append_nil] at h1
            rcases List.mem_append.mp h1 with h2 | h2
            · exact .inl h2
            · obtain ⟨t, ht, hp⟩ := mem_trueRecs _ _ _ r h2
              exact .inr ⟨g, List.mem_cons_self g gs, t, ht, hp⟩
        · rw [(generate_validates_before_store g s).1 hv] at h1
          exact .inl h1
      · exact .inr ⟨g2, List.mem_cons_of_mem g hg2, t, ht, hp⟩

/-- Witness for C2: a run of one frequency-0 call on the empty store; the
only persisted line is the single true line. -/
theorem freq_zero_no_noise_witness :
    (⟨1, 1, "A", "R", 5⟩ : LineRecord) ∈ sEmpty.lines ∨
      ∃ g ∈ [(⟨⟨0, 1, 1, 1⟩, "P", "0", 0, 100, [("A", "R", 5)], dW⟩ :
          GenInput)], ∃ t ∈ g.true_lines,
        (⟨1, 1, "A", "R", 5⟩ : LineRecord).name = t.1 ∧
        (⟨1, 1, "A", "R", 5⟩ : LineRecord).fa_name = t.2.1 ∧
        (⟨1, 1, "A", "R", 5⟩ : LineRecord).value = t.2.2 :=
  freq_zero_no_noise
    [⟨⟨0, 1, 1, 1⟩, "P", "0", 0, 100, [("A", "R", 5)], dW⟩] sEmpty
    (by intro g hg
        simp only [List.mem_singleton] at hg
        subst hg
        exact ⟨rfl, le_refl 0⟩)
    ⟨1, 1, "A", "R", 5⟩ (by with_unfolding_all decide)

/-- C3: with proportion 1 (and draws in their documented ranges) every
noise line lands on the "left" side — the "right" list stays [0.0] and
every record the call adds carries a negated, non-positive amount; with
proportion 0 every noise line lands on "right" with the positive
magnitude. -/
theorem proportion_extremes (cfg : NoiseConfig) (base : Rat) (id tid : Nat)
    (d : NoiseDraws) (s : Store) (hb : 0 ≤ base)
    (hna : 0 ≤ cfg.noise_amplitude) (hamt : ∀ i, 0 ≤ d.u_amt i)
    (hside : ∀ i, 0 ≤ d.u_side i ∧ d.u_side i < 1) :
    (cfg.proportion = 1 →
      (Transaction.noise cfg base id tid d s).1.right = [0] ∧
      ∀ r ∈ (Transaction.noise cfg base id tid d s).2.lines,
        r ∈ s.lines ∨ r.value ≤ 0) ∧
    (cfg.proportion = 0 →
      (Transaction.noise cfg base id tid d s).1.left = [0] ∧
      ∀ r ∈ (Transaction.noise cfg base id tid d s).2.lines,
        r ∈ s.lines ∨ 0 ≤ r.value) := by
  constructor
  · intro hp
    have hl : ∀ i, isLeft cfg d i = true := by
      intro i
      simp only [isLeft, hp, decide_eq_true_eq]
      exact (hside i).2
    constructor
    · rw [noise_spec]
      simp only [rightMags]
      rw [List.filter_eq_nil_iff.mpr (by intro i _; simp [hl i])]
      rfl
    · intro r hr
      rw [noise_spec] at hr
      rcases List.mem_append.mp hr with h1 | h1
      · exact .inl h1
      · obtain ⟨i, hi, rfl⟩ :=
          (mem_noiseRecs cfg base id tid d _ _ r).mp h1
        right
        rw [noiseLine_value, if_pos (hl i)]
        simp only [neg_nonpos]
        exact mag_nonneg cfg base d i hb hna (hamt i)
  · intro hp
    have hl : ∀ i, isLeft cfg d i = false := by
      intro i
      simp only [isLeft, hp, decide_eq_false_iff_not, not_lt]
      exact (hside i).1
    constructor
    · rw [noise_spec]
      simp only [leftMags]
      rw [List.filter_eq_nil_iff.mpr (by intro i _; simp [hl i])]
      rfl
    · intro r hr
      rw [noise_spec] at hr
      rcases List.mem_append.mp hr with h1 | h1
      · exact .inl h1
      · obtain ⟨i, hi, rfl⟩ :=
          (mem_noiseRecs cfg base id tid d _ _ r).mp h1
        right
        rw [noiseLine_value, if_neg (by simp [hl i])]
        exact mag_nonneg cfg base d i hb hna (hamt i)

/-- Witness for C3: proportion 1 with one injected noise line; the right
list is [0.0] and the inserted record's amount -2 is non-positive. -/
theorem proportion_extremes_witness :
    (Transaction.noise cfgW 4 7 3 dW sEmpty).1.right = [0] ∧
    ((⟨1, 3, "AB_7", "AB", -2⟩ : LineRecord) ∈ sEmpty.lines ∨
      (⟨1, 3, "AB_7", "AB", -2⟩ : LineRecord).value ≤ 0) :=
  ⟨((proportion_extremes cfgW 4 7 3 dW sEmpty (by norm_num)
        (by norm_num [cfgW]) (fun i => by norm_num [dW])
        (fun i => by norm_num [dW])).1 (by norm_num [cfgW])).1,
   ((proportion_extremes cfgW 4 7 3 dW sEmpty (by norm_num)
        (by norm_num [cfgW]) (fun i => by norm_num [dW])
        (fun i => by norm_num [dW])).1 (by norm_num [cfgW])).2
      ⟨1, 3, "AB_7", "AB", -2⟩ (by with_unfolding_all decide)⟩

/-- C4 counterexample: num_amplitude = 0 is a valid (non-negative)
amplitude, noise can still trigger, and the drawn count 0 is not strictly
less than num_amplitude. -/
theorem noise_count_bound_cex :
    ¬ ((numNoise ⟨1, 0, 1, 1⟩ (1/2) : Rat) <
        (⟨1, 0, 1, 1⟩ : NoiseConfig).num_amplitude) := by
  have h : numNoise ⟨1, 0, 1, 1⟩ (1/2) = 0 := by with_unfolding_all decide
  rw [h]
  norm_num

/-- C4 amended: when num_amplitude is positive, the count
int(random.uniform(0, num_amplitude)) is strictly below num_amplitude for
every draw in [0,1); with num_amplitude = 0 the count is 0.  (For
frequency 1 and num_amplitude 1 each call thus produces 0 or 1 noise
lines; in fact the count is always 0 there.) -/
theorem noise_count_bound (cfg : NoiseConfig) (u : Rat) (h0 : 0 ≤ u)
    (h1 : u < 1) (hA : 0 < cfg.num_amplitude) :
    (numNoise cfg u : Rat) < cfg.num_amplitude := by
  unfold numNoise
  rw [uniform_zero]
  have hx0 : 0 ≤ cfg.num_amplitude * u := mul_nonneg hA.le h0
  have hxlt : cfg.num_amplitude * u < cfg.num_amplitude := by
    calc cfg.num_amplitude * u < cfg.num_amplitude * 1 :=
          mul_lt_mul_of_pos_left h1 hA
      _ = cfg.num_amplitude := mul_one _
  have hfl : (0 : Int) ≤ ⌊cfg.num_amplitude * u⌋ := Int.floor_nonneg.mpr hx0
  have hcast : ((⌊cfg.num_amplitude * u⌋.toNat : Nat) : Rat) =
      ((⌊cfg.num_amplitude * u⌋ : Int) : Rat) := by
    norm_cast
    exact Int.toNat_of_nonneg hfl
  rw [hcast]
  exact lt_of_le_of_lt (Int.floor_le _) hxlt

/-- Witness for C4 amended: num_amplitude 3, draw 1/2: the count 1 is
below 3. -/
theorem noise_count_bound_witness :
    (numNoise ⟨1, 3, 1, 1⟩ (1/2) : Rat) <
      (⟨1, 3, 1, 1⟩ : NoiseConfig).num_amplitude :=
  noise_count_bound ⟨1, 3, 1, 1⟩ (1/2) (by norm_num) (by norm_num)
    (by norm_num)

/-- C5: every record a call to `Transaction.noise` adds has magnitude
base_amount * random.uniform(0, noise_amplitude), negated exactly on the
left side; its FA_Name is the generated random account name and its Name
is that name suffixed with "_" and the id. -/
theorem noise_line_shape (cfg : NoiseConfig) (base : Rat) (id tid : Nat)
    (d : NoiseDraws) (s : Store) (r : LineRecord)
    (hr : r ∈ (Transaction.noise cfg base id tid d s).2.lines) :
    r ∈ s.lines ∨ ∃ i, i < noiseCount cfg d ∧
      r.fa_name = d.name i ∧ r.name = d.name i ++ "_" ++ toString id ∧
      r.value = (if isLeft cfg d i then
          -(base * uniform 0 cfg.noise_amplitude (d.u_amt i))
        else base * uniform 0 cfg.noise_amplitude (d.u_amt i)) := by
  rw [noise_spec] at hr
  rcases List.mem_append.mp hr with h1 | h1
  · exact .inl h1
  · right
    obtain ⟨i, hi, rfl⟩ := (mem_noiseRecs cfg base id tid d _ _ r).mp h1
    refine ⟨i, hi, noiseLine_fa_name cfg base id tid d _ i,
      noiseLine_name cfg base id tid d _ i, ?_⟩
    rw [noiseLine_value]
    unfold mag
    rfl

/-- Witness for C5: the single noise record of a concrete call carries
FA_Name "AB", Name "AB_7" and the negated magnitude. -/
theorem noise_line_shape_witness :
    (⟨1, 3, "AB_7", "AB", -2⟩ : LineRecord) ∈ sEmpty.lines ∨
      ∃ i, i < noiseCount cfgW dW ∧
        (⟨1, 3, "AB_7", "AB", -2⟩ : LineRecord).fa_name = dW.name i ∧
        (⟨1, 3, "AB_7", "AB", -2⟩ : LineRecord).name =
          dW.name i ++ "_" ++ toString 7 ∧
        (⟨1, 3, "AB_7", "AB", -2⟩ : LineRecord).value =
          (if isLeft cfgW dW i then
              -(4 * uniform 0 cfgW.noise_amplitude (dW.u_amt i))
            else 4 * uniform 0 cfgW.noise_amplitude (dW.u_amt i)) :=
  noise_line_shape cfgW 4 7 3 dW sEmpty ⟨1, 3, "AB_7", "AB", -2⟩
    (by with_unfolding_all decide)

/-- C6 counterexample: in a concrete invocation that injects one left-side
noise line of magnitude 2, the returned "left" list is [0.0, 2] — not
exactly the magnitudes [2] of the left-side lines written, because of the
initial 0.0 sentinel. -/
theorem noise_sides_exact_cex :
    ¬ ((Transaction.noise cfgW 4 7 3 dW sEmpty).1.left =
        ((Transaction.noise cfgW 4 7 3 dW sEmpty).2.lines.drop
            sEmpty.lines.length).filterMap
          (fun r => if r.value ≤ 0 then some (-r.value) else none)) := by
  with_unfolding_all decide

/-- C6 amended: alongside the entry id the noise step returns the drawn
noise amounts per side, each list led by the initial 0.0 sentinel: after
it, the "left" list holds exactly the magnitudes of the left-side noise
lines written (stored negated) and the "right" list exactly those of the
right-side ones (stored positive). -/
theorem noise_sides_exact (cfg : NoiseConfig) (base : Rat) (id tid : Nat)
    (d : NoiseDraws) (s : Store) :
    ((Transaction.noise cfg base id tid d s).2.lines.drop s.lines.length =
      noiseRecs cfg base id tid d (s.lines.length + 1)
        (noiseCount cfg d)) ∧
    ((Transaction.noise cfg base id tid d s).1.left =
      0 :: ((List.range (noiseCount cfg d)).filter (isLeft cfg d)).map
        (mag cfg base d)) ∧
    ((Transaction.noise cfg base id tid d s).1.right =
      0 :: ((List.range (noiseCount cfg d)).filter
          (fun i => ! isLeft cfg d i)).map (mag cfg base d)) ∧
    ∀ i ∈ List.range (noiseCount cfg d),
      (noiseLine cfg base id tid d (s.lines.length + 1 + i) i).value =
        if isLeft cfg d i then -(mag cfg base d i) else mag cfg base d i := by
  rw [noise_spec]
  refine ⟨?_, rfl, rfl, ?_⟩
  · simp [List.drop_left]
  · intro i _
    exact noiseLine_value cfg base id tid d _ i

/-- C7: a call to add_line against an entry id that no entry of this run
carries fails fast with a referential-integrity error and leaves the
store exactly as it was: the line is not persisted. -/
theorem add_line_missing_entry (s : Store) (entry_id : Nat)
    (nm fa : String) (v : Rat) (h : ∀ e ∈ s.entries, e.eid ≠ entry_id) :
    add_line s entry_id nm fa v = (.error .missingEntry, s) := by
  have hfalse : (s.entries.any fun e => e.eid == entry_id) = false := by
    rw [List.any_eq_false]
    intro e he
    simp only [beq_iff_eq]
    exact h e he
  simp [add_line, hfalse]

/-- Witness for C7: writing a line against entry id 5 on the empty store
fails with the missing-entry error. -/
theorem add_line_missing_entry_witness :
    add_line sEmpty 5 "A" "G" 1 = (.error .missingEntry, sEmpty) :=
  add_line_missing_entry sEmpty 5 "A" "G" 1 (by simp [sEmpty])

/-- A concrete generate input: valid configuration, two balanced true
lines, draws that inject one left-side noise line. -/
def gW : GenInput := ⟨cfgW, "P", "0", 0, 4, [("A", "R", -4), ("C", "S", 4)], dW⟩

/-- C8: on a well-formed store (all rowids at most the table length, as
holds for rowids 1..n of an append-only table), the entry id a new call
assigns differs from every entry id already assigned, the line id an
addRecord call assigns differs from every line id already assigned, and a
whole generate call keeps both tables well-formed, so no identifier is
ever reused within a run. -/
theorem ids_never_reused (s : Store) (now : Rat) (tname pfix nm fa : String)
    (v : Rat) (tid : Nat) (g : GenInput)
    (he : s.entriesWf) (hl : s.linesWf) :
    (Transaction.new s now tname pfix).1 ∉
      s.entries.map (fun e => e.eid) ∧
    (s.addRecord nm fa v tid).1 ∉ s.lines.map (fun r => r.lid) ∧
    (generate g s).2.entriesWf ∧ (generate g s).2.linesWf := by
  refine ⟨?_, ?_, generate_entriesWf g s he, generate_linesWf g s hl⟩
  · intro hmem
    simp only [Transaction.new, List.mem_map] at hmem
    obtain ⟨e, hemem, heq⟩ := hmem
    have := he e hemem
    omega
  · intro hmem
    simp only [Store.addRecord, List.mem_map] at hmem
    obtain ⟨r, hrmem, heq⟩ := hmem
    have := hl r hrmem
    omega

/-- Witness for C8 on the empty store and a concrete generate call. -/
theorem ids_never_reused_witness :
    (Transaction.new sEmpty 0 "P" "0").1 ∉
      sEmpty.entries.map (fun e => e.eid) ∧
    (sEmpty.addRecord "A" "G" 1 1).1 ∉
      sEmpty.lines.map (fun r => r.lid) ∧
    (generate gW sEmpty).2.entriesWf ∧ (generate gW sEmpty).2.linesWf :=
  ids_never_reused sEmpty 0 "P" "0" "A" "G" 1 1 gW
    (by intro e hemem; simp [sEmpty] at hemem)
    (by intro r hrmem; simp [sEmpty] at hrmem)

/-- C9: a successful generate call on a store whose lines all reference
existing entries persists its N true lines and M noise lines under the
fresh entry id; filtering the final lines by that id returns exactly
N + M records whose first N carry the true tuples unchanged, and the
store's previous rows are still there, unmodified, in place. -/
theorem round_trip (g : GenInput) (s : Store) (hv : g.cfg.Valid)
    (ht : g.true_lines ≠ []) (hw : s.tidsWf) :
    ((generate g s).2.lines.filter
        (fun r => r.tid == s.entries.length + 1)).length =
      g.true_lines.length + noiseCount g.cfg g.d ∧
    (((generate g s).2.lines.filter
        (fun r => r.tid == s.entries.length + 1)).take
          g.true_lines.length).map
        (fun r => (r.name, r.fa_name, r.value)) = g.true_lines ∧
    (generate g s).2.lines.take s.lines.length = s.lines ∧
    (generate g s).2.entries.take s.entries.length = s.entries := by
  rw [generate_ok_eq g s hv ht]
  have hold : (s.lines.filter
      (fun r => r.tid == s.entries.length + 1)) = [] := by
    rw [List.filter_eq_nil_iff]
    intro r hrmem
    have := hw r hrmem
    simp only [beq_iff_eq]
    omega
  have htrue : ((trueRecs g.true_lines (s.entries.length + 1)
        (s.lines.length + 1)).filter
      (fun r => r.tid == s.entries.length + 1)) =
      trueRecs g.true_lines (s.entries.length + 1) (s.lines.length + 1) := by
    rw [List.filter_eq_self]
    intro r hrmem
    simp only [beq_iff_eq]
    exact trueRecs_tid _ _ _ r hrmem
  have hnoise : ((noiseRecs g.cfg g.base (s.entries.length + 1)
        (s.entries.length + 1) g.d
        (s.lines.length + g.true_lines.length + 1)
        (noiseCount g.cfg g.d)).filter
      (fun r => r.tid == s.entries.length + 1)) =
      noiseRecs g.cfg g.base (s.entries.length + 1) (s.entries.length + 1)
        g.d (s.lines.length + g.true_lines.length + 1)
        (noiseCount g.cfg g.d) := by
    rw [List.filter_eq_self]
    intro r hrmem
    obtain ⟨i, hi, rfl⟩ :=
      (mem_noiseRecs _ _ _ _ _ _ _ r).mp hrmem
    simp [noiseLine_tid]
  refine ⟨?_, ?_, ?_, ?_⟩
  · simp only [List.filter_append, hold, htrue, hnoise, List.nil_append,
      List.length_append, trueRecs_length, noiseRecs_length]
  · simp only [List.filter_append, hold, htrue, hnoise, List.nil_append]
    rw [← trueRecs_length g.true_lines (s.entries.length + 1)
        (s.lines.length + 1)]
    rw [List.take_left]
    exact trueRecs_proj _ _ _
  · rw [List.append_assoc, List.take_left]
  · rw [List.take_left]

/-- Witness for C9: the concrete generate call writes 2 true lines and 1
noise line under entry id 1 and preserves the (empty) prior store. -/
theorem round_trip_witness :
    ((generate gW sEmpty).2.lines.filter
        (fun r => r.tid == sEmpty.entries.length + 1)).length =
      gW.true_lines.length + noiseCount gW.cfg gW.d ∧
    (((generate gW sEmpty).2.lines.filter
        (fun r => r.tid == sEmpty.entries.length + 1)).take
          gW.true_lines.length).map
        (fun r => (r.name, r.fa_name, r.value)) = gW.true_lines ∧
    (generate gW sEmpty).2.lines.take sEmpty.lines.length = sEmpty.lines ∧
    (generate gW sEmpty).2.entries.take sEmpty.entries.length =
      sEmpty.entries :=
  round_trip gW sEmpty
    (by norm_num [NoiseConfig.Valid, gW, cfgW])
    (by simp [gW])
    (by intro r hrmem; simp [sEmpty] at hrmem)

/-- C10: whether or not noise is triggered, both returned lists start with
the 0.0 the dictionary is initialised with, each list's length is one
plus the number of noise lines written on its side, and with no noise the
result is exactly the initialised dictionary, [0.0] on each side. -/
theorem noise_lists_sentinel (cfg : NoiseConfig) (base : Rat) (id tid : Nat)
    (d : NoiseDraws) (s : Store) :
    (Transaction.noise cfg base id tid d s).1.left.head? = some 0 ∧
    (Transaction.noise cfg base id tid d s).1.right.head? = some 0 ∧
    (Transaction.noise cfg base id tid d s).1.left.length =
      1 + ((List.range (noiseCount cfg d)).filter (isLeft cfg d)).length ∧
    (Transaction.noise cfg base id tid d s).1.right.length =
      1 + ((List.range (noiseCount cfg d)).filter
          (fun i => ! isLeft cfg d i)).length ∧
    (Transaction.noise cfg base id tid d s).2.lines.length =
      s.lines.length + noiseCount cfg d ∧
    (noiseCount cfg d = 0 →
      (Transaction.noise cfg base id tid d s).1 = ⟨[0], [0]⟩) := by
  rw [noise_spec]
  refine ⟨rfl, rfl, ?_, ?_, ?_, ?_⟩
  · simp [leftMags, Nat.add_comm]
  · simp [rightMags, Nat.add_comm]
  · simp [noiseRecs_length]
  · intro h
    simp [h, leftMags, rightMags]

/-- Witness for C10 at a no-noise input: frequency 0 returns exactly the
sentinel lists. -/
theorem noise_lists_sentinel_witness :
    (Transaction.noise ⟨0, 1, 1, 1⟩ 4 7 3 dW sEmpty).1 = ⟨[0], [0]⟩ :=
  (noise_lists_sentinel ⟨0, 1, 1, 1⟩ 4 7 3 dW sEmpty).2.2.2.2.2
    (by with_unfolding_all decide)

/-- Witness for C6 amended at a concrete input, by projection. -/
theorem noise_sides_exact_witness :
    (Transaction.noise cfgW 4 7 3 dW sEmpty).1.left =
      0 :: ((List.range (noiseCount cfgW dW)).filter (isLeft cfgW dW)).map
        (mag cfgW 4 dW) :=
  (noise_sides_exact cfgW 4 7 3 dW sEmpty).2.1
